import Mathlib

/-!
# Verification of the openllm unified message / accumulator / codec core

Shallow embedding of `github.com/thecxx/openllm` (Go): the unified message
model (`message.go`), the tool-call structures and streamed argument
accumulation (`tool.go`), the streaming-delta aggregation loops and the
reasoning-budget computation of the two backend adapters (`openai.go`,
`anthropic.go`), and the wire codec (`EncodeMessage`/`DecodeMessage` in
`message.go`).

Strings stay Lean `String`s; Go `strings.Builder` is modelled as the list of
written chunks (its `String()` is the concatenation); Go maps keyed by `int`
are modelled as association lists with insert-or-replace update; fallible Go
paths return `Except`.
-/

namespace OpenLLM

/-! ## Constants (`constants/role.go`, `constants/image.go`, `constants` pkg) -/

def roleUser : String := "user"
def roleAssistant : String := "assistant"
def roleSystem : String := "system"
def roleTool : String := "tool"

def contentPartTypeText : String := "text"
def contentPartTypeImageURL : String := "image_url"

def toolTypeFunction : String := "function"

def imageURLDetailHigh : String := "high"
def imageURLDetailLow : String := "low"
def imageURLDetailAuto : String := "auto"

def reasoningEffortLow : String := "low"
def reasoningEffortMedium : String := "medium"
def reasoningEffortHigh : String := "high"

/-! ## Content model (`message.go`) -/

/-- `ImageURL` of `message.go`: an image URL with detail level. -/
structure ImageURL where
  url : String
  detail : String
deriving DecidableEq, Repr

/-- `ContentPart` of `message.go`: one part of a multi-modal message. -/
structure ContentPart where
  type : String
  text : String := ""
  imageURL : Option ImageURL := none
deriving DecidableEq, Repr

/-- `funcall` of `tool.go`.  `buff` models the `strings.Builder` that
accumulates streamed argument deltas, as the list of written chunks. -/
structure Funcall where
  name : String
  args : String := ""
  buff : List String := []
deriving DecidableEq, Repr

/-- `strings.Builder.String()` on the accumulation buffer. -/
def Funcall.buffString (f : Funcall) : String :=
  String.join f.buff

/-- `funcall.Arguments` (`tool.go`): the complete payload if present,
otherwise the accumulated streamed content. -/
def Funcall.arguments (f : Funcall) : String :=
  if f.args ≠ "" then f.args else f.buffString

/-- `funcall.writeArgs` (`tool.go`): append a streamed delta to the buffer. -/
def Funcall.writeArgs (f : Funcall) (delta : String) : Funcall :=
  { f with buff := f.buff ++ [delta] }

/-- `toolcall` of `tool.go`. -/
structure Toolcall where
  index : Int
  id : String
  type_ : String
  fcall : Funcall
deriving DecidableEq, Repr

/-- `llmmsg` of `message.go`: the unified message structure. -/
structure Llmmsg where
  role : String
  content : List ContentPart := []
  toolCalls : List Toolcall := []
  toolCallID : String := ""
  reasoning : String := ""
  refusal : String := ""
  name : String := ""
deriving DecidableEq, Repr

/-- `llmmsg.Role` (`message.go`). -/
def Llmmsg.Role (m : Llmmsg) : String :=
  m.role

/-- `llmmsg.Content` (`message.go`): fold over the parts, writing the text of
each text-typed part into a `strings.Builder`. -/
def Llmmsg.Content (m : Llmmsg) : String :=
  m.content.foldl
    (fun sb part => if part.type = contentPartTypeText then sb ++ part.text else sb) ""

/-- `llmmsg.Reasoning` (`message.go`). -/
def Llmmsg.Reasoning (m : Llmmsg) : String :=
  m.reasoning

/-! ## Message factories (`message.go`) -/

/-- `NewUserMessage` (`message.go`); the applied `MessageOption`s are
summarised by the image-URL list they append (`MessageOptions.imageURLs`). -/
def NewUserMessage (content : String) (imageURLs : List ImageURL) : Llmmsg :=
  if imageURLs = [] then
    { role := roleUser
      content := [{ type := contentPartTypeText, text := content }] }
  else
    { role := roleUser
      content :=
        imageURLs.map (fun img => { type := contentPartTypeImageURL, imageURL := some img }) ++
          (if content ≠ "" then [{ type := contentPartTypeText, text := content }] else []) }

/-- `NewToolMessage` (`message.go`). -/
def NewToolMessage (tool : Toolcall) (result : String) : Llmmsg :=
  { role := roleTool
    toolCallID := tool.id
    content := [{ type := contentPartTypeText, text := result }] }

/-- `NewSystemMessage` (`message.go`). -/
def NewSystemMessage (content : String) : Llmmsg :=
  { role := roleSystem
    content := [{ type := contentPartTypeText, text := content }] }

/-- `NewAssistantMessage` (`message.go`): copies each given tool call into a
fresh `toolcall` whose `args` field is the source call's `Arguments()`. -/
def NewAssistantMessage (content : String) (toolCalls : List Toolcall) : Llmmsg :=
  { role := roleAssistant
    content :=
      if content ≠ "" then [{ type := contentPartTypeText, text := content }] else []
    toolCalls :=
      toolCalls.map (fun tc =>
        { index := tc.index, id := tc.id, type_ := tc.type_
          fcall := { name := tc.fcall.name, args := tc.fcall.arguments } }) }

/-! ## Message options (`message.go`, `WithImageURL` / `WithImageURLDetail`)

A `MessageOption` mutates `MessageOptions.imageURLs`; we model the option as
the function it applies to that list. -/

/-- `WithImageURLDetail` (`message.go`): normalises an unknown detail string
to `auto`, then appends the image URL to the options. -/
def WithImageURLDetail (imageURL : String) (detail : String) :
    List ImageURL → List ImageURL :=
  let detail :=
    if detail ≠ imageURLDetailHigh ∧ detail ≠ imageURLDetailLow ∧
        detail ≠ imageURLDetailAuto then
      imageURLDetailAuto
    else detail
  fun imageURLs => imageURLs ++ [{ url := imageURL, detail := detail }]

/-- `WithImageURL` (`message.go`): delegates to `WithImageURLDetail` with
detail `auto`. -/
def WithImageURL (imageURL : String) : List ImageURL → List ImageURL :=
  WithImageURLDetail imageURL imageURLDetailAuto

/-! ## Wire codec (`message.go`: `MarshalJSON`/`UnmarshalJSON`,
`EncodeMessage`/`DecodeMessage`)

`EncodeMessage` serialises via the `alias` struct of `llmmsg.MarshalJSON`;
`DecodeMessage` parses back with `llmmsg.UnmarshalJSON`.  We model the JSON
payload as the alias structures themselves: every field of the aliases is a
string, an int, or a list of such records, and `encoding/json` round-trips
those exactly (`omitempty` only drops empty fields, which decode back to
their zero values). -/

/-- The `alias` struct of `funcall.MarshalJSON` (`tool.go`). -/
structure WireFuncall where
  name : String
  arguments : String
deriving DecidableEq, Repr

/-- The `alias` struct of `toolcall.MarshalJSON` (`tool.go`). -/
structure WireToolcall where
  index : Int
  id : String
  type_ : String
  function : WireFuncall
deriving DecidableEq, Repr

/-- The `alias` struct of `llmmsg.MarshalJSON` (`message.go`). -/
structure WireMsg where
  role : String
  content : List ContentPart
  toolCalls : List WireToolcall
  toolCallID : String
  reasoning : String
  refusal : String
  name : String
deriving DecidableEq, Repr

/-- `funcall.MarshalJSON` (`tool.go`): serialises `Name` and `Arguments()`. -/
def Funcall.marshalJSON (f : Funcall) : WireFuncall :=
  { name := f.name, arguments := f.arguments }

/-- `funcall.UnmarshalJSON` (`tool.go`): restores `name` and `args`; the
streaming buffer of a freshly decoded `funcall` is empty. -/
def WireFuncall.unmarshal (w : WireFuncall) : Funcall :=
  { name := w.name, args := w.arguments, buff := [] }

/-- `toolcall.MarshalJSON` (`tool.go`). -/
def Toolcall.marshalJSON (tc : Toolcall) : WireToolcall :=
  { index := tc.index, id := tc.id, type_ := tc.type_
    function := tc.fcall.marshalJSON }

/-- `toolcall.UnmarshalJSON` (`tool.go`). -/
def WireToolcall.unmarshal (w : WireToolcall) : Toolcall :=
  { index := w.index, id := w.id, type_ := w.type_
    fcall := w.function.unmarshal }

/-- `llmmsg.MarshalJSON` (`message.go`). -/
def Llmmsg.marshalJSON (m : Llmmsg) : WireMsg :=
  { role := m.role
    content := m.content
    toolCalls := m.toolCalls.map Toolcall.marshalJSON
    toolCallID := m.toolCallID
    reasoning := m.reasoning
    refusal := m.refusal
    name := m.name }

/-- `llmmsg.UnmarshalJSON` (`message.go`). -/
def WireMsg.unmarshal (w : WireMsg) : Llmmsg :=
  { role := w.role
    content := w.content
    toolCalls := w.toolCalls.map WireToolcall.unmarshal
    toolCallID := w.toolCallID
    reasoning := w.reasoning
    refusal := w.refusal
    name := w.name }

/-- `EncodeMessage` (`message.go`): a unified `llmmsg` implements
`json.Marshaler`, so encoding is its `MarshalJSON`. -/
def EncodeMessage (msg : Llmmsg) : WireMsg :=
  msg.marshalJSON

/-- `DecodeMessage` (`message.go`): unmarshals the payload into a fresh
`llmmsg`.  The decoder is backend-agnostic — it does not depend on any
backend selector. -/
def DecodeMessage (data : WireMsg) : Llmmsg :=
  data.unmarshal

/-! ## Tool-call accumulator (`anthropic.go` / `openai.go` streaming loops)

Both streaming loops keep `callm := make(map[int]*toolcall)`.  A declare
event (`ContentBlockStartEvent` with a `ToolUseBlock`, or an OpenAI delta
with a non-empty function name) stores a fresh call at its index, replacing
any previous entry; an argument delta appends to the call at its index via
`writeArgs` when one exists and does nothing otherwise; at end of stream the
map's values are sorted ascending by `Index()` (`sort.Slice`).  The map is
modelled as an association list with insert-or-replace update (Go map
iteration order is immaterial because the values are sorted at the end). -/

abbrev AccState := List (Int × Toolcall)

/-- Go map update `callm[index] = tcall`: replace in place when the key is
present, otherwise add the binding. -/
def mapInsert (st : AccState) (k : Int) (v : Toolcall) : AccState :=
  if st.any (fun p => p.1 = k) then
    st.map (fun p => if p.1 = k then (k, v) else p)
  else
    st ++ [(k, v)]

/-- Go map lookup `callm[index]`. -/
def mapLookup (st : AccState) (k : Int) : Option Toolcall :=
  (st.find? (fun p => p.1 = k)).map (fun p => p.2)

/-- Tool-call declaration: both backends build a fresh `toolcall` carrying
the event's index, id and function name (no arguments yet) and store it at
the index. -/
def declareCall (st : AccState) (index : Int) (id name : String) : AccState :=
  mapInsert st index
    { index := index, id := id, type_ := toolTypeFunction
      fcall := { name := name } }

/-- Argument-delta handling: `if tcall, found := callm[index]; found {
tcall.fcall.writeArgs(fragment) }` — a no-op when the index was never
declared. -/
def appendArguments (st : AccState) (index : Int) (fragment : String) : AccState :=
  st.map (fun p =>
    if p.1 = index then (p.1, { p.2 with fcall := p.2.fcall.writeArgs fragment })
    else p)

/-- One declare/append event fed to the accumulator. -/
inductive AccEvent where
  | declare (index : Int) (id name : String)
  | append (index : Int) (fragment : String)
deriving DecidableEq, Repr

def stepAcc (st : AccState) (e : AccEvent) : AccState :=
  match e with
  | .declare index id name => declareCall st index id name
  | .append index fragment => appendArguments st index fragment

def runAcc (events : List AccEvent) : AccState :=
  events.foldl stepAcc []

/-- End-of-stream collection: take the map's values and
`sort.Slice(tcalls, func(i, j) { return tcalls[i].Index() < tcalls[j].Index() })`.
With unique indices the sorted permutation is unique, so any correct sorting
function models Go's sort; we use insertion sort, which evaluates. -/
def finalizeAcc (st : AccState) : List Toolcall :=
  List.insertionSort (fun a b => a.index ≤ b.index) (st.map (fun p => p.2))

/-! ## Anthropic reasoning budget (`anthropic.go`, `makeRequest`) -/

/-- The thinking budget configured by `makeRequest` (`anthropic.go`) when a
reasoning effort is set: the effort maps through
low→1024 / medium→4096 / high→8192 (anything else→4096); `maxTokens` is the
request's `MaxTokens` (the option value, or the default 4096 when the option
is absent); when `budget >= maxTokens` the budget is clamped to
`maxTokens - 64` (or `maxTokens - 1` when `maxTokens <= 64`); thinking is
enabled (`some budget`) only when the final budget is positive. -/
def anthropicThinkingBudget (effort : String) (maxTokensOpt : Option Int) :
    Option Int :=
  let budget : Int :=
    if effort = reasoningEffortLow then 1024
    else if effort = reasoningEffortMedium then 4096
    else if effort = reasoningEffortHigh then 8192
    else 4096
  let maxTokens := maxTokensOpt.getD 4096
  let budget :=
    if budget ≥ maxTokens then
      if maxTokens > 64 then maxTokens - 64 else maxTokens - 1
    else budget
  if budget > 0 then some budget else none

/-! ## Errors (`errors` of the package; `ErrEmptyChoices`) -/

/-- Error values observable from the adapters: `ErrEmptyChoices` for an empty
backend answer, and opaque caller/watcher errors (tagged). -/
inductive LLMError where
  | emptyChoices
  | custom (tag : Nat)
deriving DecidableEq, Repr

/-! ## Blocking completion, response side (`openai.go` `ChatCompletion`,
`anthropic.go` `ChatCompletion`)

Request construction and the network call are collaborator concerns; we model
the adapter's handling of the backend's already-received response. -/

/-- `openai.ChatCompletionMessage` — the response fields the adapter reads. -/
structure OpenAIChatMsgPart where
  type : String
  text : String := ""
  imageURL : Option ImageURL := none
deriving DecidableEq, Repr

/-- `openai.ToolCall` — `Index` is a pointer (`Option`). -/
structure OpenAIToolCall where
  index : Option Int
  id : String := ""
  type_ : String := ""
  name : String := ""
  arguments : String := ""
deriving DecidableEq, Repr

/-- The message of one OpenAI response choice. -/
structure OpenAIChatMessage where
  role : String := ""
  content : String := ""
  reasoningContent : String := ""
  refusal : String := ""
  multiContent : List OpenAIChatMsgPart := []
  toolCalls : List OpenAIToolCall := []
deriving DecidableEq, Repr

/-- The result assembled by either adapter: the answer message plus the
ordered tool-call list of the `response`. -/
structure ChatResult where
  answer : Llmmsg
  tcalls : List Toolcall
deriving DecidableEq, Repr

/-- Tool-call extraction of `llm.ChatCompletion` (`openai.go`): skip calls
with a nil index; keep function-typed calls with a non-empty name. -/
def openAIExtractToolCalls (calls : List OpenAIToolCall) : List Toolcall :=
  calls.foldl
    (fun acc call =>
      match call.index with
      | none => acc
      | some index =>
        if call.type_ = toolTypeFunction ∧ call.name ≠ "" then
          acc ++ [{ index := index, id := call.id, type_ := toolTypeFunction
                    fcall := { name := call.name, args := call.arguments } }]
        else acc)
    []

/-- Content-part assembly of `llm.ChatCompletion` (`openai.go`): a non-empty
`Content` becomes a single text part, otherwise `MultiContent` is converted
part by part. -/
def openAIAnswerParts (msg : OpenAIChatMessage) : List ContentPart :=
  if msg.content ≠ "" then
    [{ type := contentPartTypeText, text := msg.content }]
  else
    msg.multiContent.foldl
      (fun parts p =>
        if p.type = contentPartTypeText then
          parts ++ [{ type := contentPartTypeText, text := p.text }]
        else if p.type = contentPartTypeImageURL ∧ p.imageURL.isSome then
          parts ++ [{ type := contentPartTypeImageURL, imageURL := p.imageURL }]
        else parts)
      []

/-- Response handling of `llm.ChatCompletion` (`openai.go`): zero choices is
`ErrEmptyChoices`; otherwise the first choice's message becomes the unified
answer (the error constructor carries no message value at all). -/
def openAIChatCompletion (choices : List OpenAIChatMessage) :
    Except LLMError ChatResult :=
  match choices with
  | [] => Except.error LLMError.emptyChoices
  | choice :: _ =>
    let tcalls := openAIExtractToolCalls choice.toolCalls
    Except.ok
      { answer :=
          { role := choice.role
            reasoning := choice.reasoningContent
            refusal := choice.refusal
            content := openAIAnswerParts choice
            toolCalls :=
              tcalls.map (fun tc =>
                { index := tc.index, id := tc.id, type_ := tc.type_
                  fcall := { name := tc.fcall.name, args := tc.fcall.arguments } }) }
        tcalls := tcalls }

/-- One content block of an Anthropic blocking response; `toolUse` carries
the JSON rendering of the block's `Input`. -/
inductive AnthropicBlock where
  | text (s : String)
  | thinking (s : String)
  | toolUse (id name argsJSON : String)
  | other
deriving DecidableEq, Repr

/-- Response handling of `anthropicLLM.ChatCompletion` (`anthropic.go`):
zero content blocks is `ErrEmptyChoices`; otherwise text/thinking blocks are
concatenated and tool-use blocks numbered by a running index. -/
def anthropicChatCompletion (blocks : List AnthropicBlock) :
    Except LLMError ChatResult :=
  match blocks with
  | [] => Except.error LLMError.emptyChoices
  | _ =>
    let folded :=
      blocks.foldl
        (fun (acc : List String × List String × List Toolcall × Int) block =>
          let (content, reasoning, tcalls, idx) := acc
          match block with
          | .text s => (content ++ [s], reasoning, tcalls, idx)
          | .thinking s => (content, reasoning ++ [s], tcalls, idx)
          | .toolUse id name argsJSON =>
            (content, reasoning,
              tcalls ++ [{ index := idx, id := id, type_ := toolTypeFunction
                           fcall := { name := name, args := argsJSON } }],
              idx + 1)
          | .other => acc)
        ([], [], [], 0)
    let (content, reasoning, tcalls, _) := folded
    Except.ok
      { answer :=
          { role := roleAssistant
            content := [{ type := contentPartTypeText, text := String.join content }]
            reasoning := String.join reasoning
            toolCalls := tcalls }
        tcalls := tcalls }

/-! ## Streaming completion (`openai.go`, `ChatCompletionStream`)

The loop receives frames; a frame with no choices is skipped.  For the first
choice of each frame the loop captures the role once, forwards reasoning /
content / refusal deltas to the watcher (aborting on a watcher error) while
buffering them, and feeds tool-call deltas to the accumulator.  After the
stream ends `OnStop` fires once and the answer is assembled.  The watcher is
modelled as a pure function of its own invocation history, and the run
returns the full invocation trace so that callback ordering is provable. -/

/-- One tool-call delta in an OpenAI stream frame. -/
structure OpenAIDeltaToolCall where
  index : Option Int
  id : String := ""
  type_ : String := ""
  name : String := ""
  arguments : String := ""
deriving DecidableEq, Repr

/-- The delta of one OpenAI stream choice. -/
structure OpenAIDelta where
  role : String := ""
  content : String := ""
  reasoningContent : String := ""
  refusal : String := ""
  toolCalls : List OpenAIDeltaToolCall := []
deriving DecidableEq, Repr

/-- One OpenAI stream frame (`ChatCompletionStreamResponse`). -/
structure OpenAIStreamFrame where
  choices : List OpenAIDelta := []
deriving DecidableEq, Repr

/-- One invocation of a `StreamWatcher` callback (`define.go` interface). -/
inductive ObsCall where
  | onReasoning (chunk : String)
  | onContent (chunk : String)
  | onRefusal (chunk : String)
  | onToolCall (index : Int) (fragment : String)
  | onStop
deriving DecidableEq, Repr

/-- A watcher, modelled as a pure function of its past invocations: given the
calls made so far and the current call, it returns `some e` to abort. -/
abbrev ObsFn := List ObsCall → ObsCall → Option LLMError

/-- Mutable state of the streaming loop (`role`, the three
`strings.Builder`s, `callm`), extended with the watcher invocation trace. -/
structure StreamState where
  role : String := ""
  content : List String := []
  reasoning : List String := []
  refusal : List String := []
  callm : AccState := []
  trace : List ObsCall := []
deriving DecidableEq, Repr

/-- Invoke the watcher (when present): record the call and obtain its
verdict.  `options.watcher == nil` invokes nothing. -/
def invokeWatcher (w : Option ObsFn) (st : StreamState) (c : ObsCall) :
    StreamState × Option LLMError :=
  match w with
  | none => (st, none)
  | some f => ({ st with trace := st.trace ++ [c] }, f st.trace c)

/-- The inner `for _, call := range choice.Delta.ToolCalls` loop
(`openai.go`): nil indices are skipped; a function-typed delta with a
non-empty name declares a call (watcher told with an empty fragment); a
non-empty argument fragment is appended only when its index is declared
(watcher told with the fragment). -/
def stepToolDeltas (w : Option ObsFn) (st : StreamState) :
    List OpenAIDeltaToolCall → Except (StreamState × LLMError) StreamState
  | [] => Except.ok st
  | call :: rest =>
    match call.index with
    | none => stepToolDeltas w st rest
    | some index =>
      let afterDeclare :=
        if call.type_ = toolTypeFunction ∧ call.name ≠ "" then
          let (st1, e1) := invokeWatcher w st (ObsCall.onToolCall index "")
          match e1 with
          | some err => Except.error (st1, err)
          | none =>
            Except.ok { st1 with callm := declareCall st1.callm index call.id call.name }
        else Except.ok st
      match afterDeclare with
      | Except.error r => Except.error r
      | Except.ok st2 =>
        if call.arguments ≠ "" then
          match mapLookup st2.callm index with
          | none => stepToolDeltas w st2 rest
          | some _ =>
            let (st3, e3) := invokeWatcher w st2 (ObsCall.onToolCall index call.arguments)
            match e3 with
            | some err => Except.error (st3, err)
            | none =>
              stepToolDeltas w
                { st3 with callm := appendArguments st3.callm index call.arguments } rest
        else stepToolDeltas w st2 rest

/-- One `if choice.Delta.X != "" { watcher callback; buffer append }` block of
the stream loop (`openai.go`); the same shape is used for the reasoning,
content and refusal deltas, differing only in the callback constructor and
the buffer written to. -/
def deltaStage (w : Option ObsFn) (st : StreamState) (chunk : String)
    (mk : String → ObsCall) (write : StreamState → String → StreamState) :
    Except (StreamState × LLMError) StreamState :=
  if chunk ≠ "" then
    let (st1, e1) := invokeWatcher w st (mk chunk)
    match e1 with
    | some err => Except.error (st1, err)
    | none => Except.ok (write st1 chunk)
  else Except.ok st

def writeReasoning (st : StreamState) (chunk : String) : StreamState :=
  { st with reasoning := st.reasoning ++ [chunk] }

def writeContent (st : StreamState) (chunk : String) : StreamState :=
  { st with content := st.content ++ [chunk] }

def writeRefusal (st : StreamState) (chunk : String) : StreamState :=
  { st with refusal := st.refusal ++ [chunk] }

/-- Handling of one received frame (`openai.go` stream loop body): skip empty
payloads, capture the role once, then forward/buffer reasoning, content and
refusal deltas in that order before the tool-call deltas. -/
def stepFrame (w : Option ObsFn) (st : StreamState) (frame : OpenAIStreamFrame) :
    Except (StreamState × LLMError) StreamState :=
  match frame.choices with
  | [] => Except.ok st
  | choice :: _ =>
    let st := if choice.role ≠ "" ∧ st.role = "" then { st with role := choice.role } else st
    match deltaStage w st choice.reasoningContent ObsCall.onReasoning writeReasoning with
    | Except.error r => Except.error r
    | Except.ok st2 =>
      match deltaStage w st2 choice.content ObsCall.onContent writeContent with
      | Except.error r => Except.error r
      | Except.ok st4 =>
        match deltaStage w st4 choice.refusal ObsCall.onRefusal writeRefusal with
        | Except.error r => Except.error r
        | Except.ok st6 => stepToolDeltas w st6 choice.toolCalls

/-- The frame-receive loop. -/
def runFrames (w : Option ObsFn) (st : StreamState) :
    List OpenAIStreamFrame → Except (StreamState × LLMError) StreamState
  | [] => Except.ok st
  | f :: rest =>
    match stepFrame w st f with
    | Except.error r => Except.error r
    | Except.ok st' => runFrames w st' rest

/-- `llm.ChatCompletionStream` (`openai.go`), from the first received frame
on: on a watcher abort the error is returned as-is with no result; otherwise
`OnStop` fires once, the accumulated calls are sorted by index, and the
answer message is assembled from the buffered role/content/reasoning/refusal
and the sorted calls.  The first component is the full watcher-invocation
trace. -/
def openAIChatCompletionStream (w : Option ObsFn) (frames : List OpenAIStreamFrame) :
    List ObsCall × Except LLMError ChatResult :=
  match runFrames w {} frames with
  | Except.error (st, e) => (st.trace, Except.error e)
  | Except.ok st =>
    let (st1, e1) := invokeWatcher w st ObsCall.onStop
    match e1 with
    | some err => (st1.trace, Except.error err)
    | none =>
      let tcalls := finalizeAcc st1.callm
      let contentStr := String.join st1.content
      let answer : Llmmsg :=
        { role := st1.role
          content :=
            if contentStr ≠ "" then [{ type := contentPartTypeText, text := contentStr }]
            else []
          reasoning := String.join st1.reasoning
          refusal := String.join st1.refusal
          toolCalls :=
            tcalls.map (fun tc =>
              { index := tc.index, id := tc.id, type_ := tc.type_
                fcall := { name := tc.fcall.name, args := tc.fcall.arguments } }) }
      (st1.trace, Except.ok { answer := answer, tcalls := tcalls })

/-! ## Anthropic streaming role capture (`anthropic.go`,
`ChatCompletionStream`) -/

/-- The Anthropic stream events the role logic can see; `messageStart`
carries the wire role of the started message (the SDK schema fixes it to
`"assistant"` whenever present). -/
inductive AnthropicStreamEvent where
  | messageStart (role : String)
  | contentBlockStartToolUse (index : Int) (id name : String)
  | textDelta (index : Int) (text : String)
  | thinkingDelta (index : Int) (text : String)
  | inputJSONDelta (index : Int) (partialJSON : String)
  | other
deriving DecidableEq, Repr

/-- Role handling of one event (`anthropic.go`): on `MessageStartEvent` with
a non-empty role, set the captured role to `constants.RoleAssistant`. -/
def anthropicRoleStep (role : String) (ev : AnthropicStreamEvent) : String :=
  match ev with
  | .messageStart r => if r ≠ "" then roleAssistant else role
  | _ => role

/-- The captured role after the whole Anthropic stream. -/
def anthropicRoleFold (events : List AnthropicStreamEvent) : String :=
  events.foldl anthropicRoleStep ""

/-! ## Spec-side definitions for refinement comparisons -/

/-- Modelled from the spec: "the concatenation, in order, of the text of each
text-typed content part" — stated independently of the builder fold used by
`llmmsg.Content`. -/
def specTextConcat : List ContentPart → String
  | [] => ""
  | p :: rest =>
    (if p.type = contentPartTypeText then p.text else "") ++ specTextConcat rest

/-- The observable projection of a tool call named by the round-trip law:
its ordered (id, name, arguments) tuple. -/
def toolCallTuple (tc : Toolcall) : String × String × String :=
  (tc.id, tc.fcall.name, tc.fcall.arguments)

/-! ## Derived state predicates and stream projections used by the
theorems -/

/-- Invariant of the streaming `callm` map: keys are unique (it is a map) and
every stored call's `index` field equals its key. -/
def AccInv (st : AccState) : Prop :=
  (st.map Prod.fst).Nodup ∧ ∀ p ∈ st, p.2.index = p.1

/-- The role string carried by each frame that has a choice, in stream
order. -/
def deltaRoles (frames : List OpenAIStreamFrame) : List String :=
  frames.filterMap (fun f => f.choices.head?.map (fun d => d.role))

/-- The first non-empty entry of a list of role strings (`""` when none). -/
def firstNonempty (l : List String) : String :=
  (l.find? (fun r => r ≠ "")).getD ""

/-- The effect of one frame on the captured role (`openai.go`:
`if choice.Delta.Role != "" && role == "" { role = choice.Delta.Role }`). -/
def roleStepFrame (role : String) (frame : OpenAIStreamFrame) : String :=
  match frame.choices with
  | [] => role
  | choice :: _ => if choice.role ≠ "" ∧ role = "" then choice.role else role

/-- The message-start roles of an Anthropic stream, in order. -/
def msgStartRoles (events : List AnthropicStreamEvent) : List String :=
  events.filterMap (fun ev =>
    match ev with
    | .messageStart r => some r
    | _ => none)

/-- Whether a watcher invocation is an `OnContent` call. -/
def isContentCall : ObsCall → Bool
  | .onContent _ => true
  | _ => false

/-- Number of `OnContent` invocations in a trace. -/
def countContent (tr : List ObsCall) : Nat :=
  (tr.filter isContentCall).length

/-- The claim's observer: every callback succeeds except the second
`OnContent` invocation, which returns the fixed error `e`. -/
def obsErrOnSecondContent (e : LLMError) : ObsFn :=
  fun trace c =>
    match c with
    | .onContent _ => if countContent trace = 1 then some e else none
    | _ => none

/-- The content chunk a frame delivers (none when the frame has no choices or
an empty content delta). -/
def frameContentChunk (frame : OpenAIStreamFrame) : Option String :=
  frame.choices.head?.bind (fun d => if d.content ≠ "" then some d.content else none)

/-- The content chunks a stream delivers, in order. -/
def contentChunks (frames : List OpenAIStreamFrame) : List String :=
  frames.filterMap frameContentChunk

/-! ## Helper lemmas -/

lemma contentFold_eq (parts : List ContentPart) (s : String) :
    parts.foldl
        (fun sb part => if part.type = contentPartTypeText then sb ++ part.text else sb) s
      = s ++ specTextConcat parts := by
  induction parts generalizing s with
  | nil => simp [specTextConcat]
  | cons p rest ih =>
    simp only [List.foldl_cons, specTextConcat]
    by_cases h : p.type = contentPartTypeText
    · rw [if_pos h, if_pos h, ih, String.append_assoc]
    · rw [if_neg h, if_neg h, ih, String.empty_append]

lemma Llmmsg.Content_eq_specTextConcat (m : Llmmsg) :
    m.Content = specTextConcat m.content := by
  rw [Llmmsg.Content, contentFold_eq, String.empty_append]

lemma specTextConcat_eq_empty {l : List ContentPart}
    (h : ∀ p ∈ l, p.type ≠ contentPartTypeText) : specTextConcat l = "" := by
  induction l with
  | nil => rfl
  | cons p rest ih =>
    rw [specTextConcat, if_neg (h p (by simp)), String.empty_append]
    exact ih fun q hq => h q (by simp [hq])

lemma funcall_roundtrip_arguments (f : Funcall) :
    (WireFuncall.unmarshal f.marshalJSON).arguments = f.arguments := by
  rw [Funcall.marshalJSON, WireFuncall.unmarshal, Funcall.arguments]
  by_cases h : f.arguments = ""
  · rw [if_neg (by simp [h]), h]; rfl
  · rw [if_pos (by simp [h])]

/-! ## C1 — wire-codec round trip -/

/-- C1: decoding the bytes produced by `EncodeMessage` on a unified message
yields a message with the same `Role()`, `Content()`, `Reasoning()` and the
same ordered (id, name, arguments) tool-call tuples.  The decoder of the
codec (`DecodeMessage`, `message.go`) is backend-agnostic, so the equality of
these observable projections holds for every target backend. -/
theorem encode_decode_roundtrip (m : Llmmsg) :
    (DecodeMessage (EncodeMessage m)).Role = m.Role ∧
    (DecodeMessage (EncodeMessage m)).Content = m.Content ∧
    (DecodeMessage (EncodeMessage m)).Reasoning = m.Reasoning ∧
    (DecodeMessage (EncodeMessage m)).toolCalls.map toolCallTuple
      = m.toolCalls.map toolCallTuple := by
  refine ⟨rfl, rfl, rfl, ?_⟩
  show ((m.toolCalls.map Toolcall.marshalJSON).map WireToolcall.unmarshal).map toolCallTuple
      = m.toolCalls.map toolCallTuple
  rw [List.map_map, List.map_map]
  refine List.map_congr_left fun tc _ => ?_
  show toolCallTuple (WireToolcall.unmarshal tc.marshalJSON) = toolCallTuple tc
  simp only [toolCallTuple, WireToolcall.unmarshal, Toolcall.marshalJSON,
    funcall_roundtrip_arguments]
  rfl

/-- C1 witness: the round trip evaluated on a concrete assistant message with
a streamed (buffer-held) tool call. -/
theorem encode_decode_roundtrip_witness :
    (DecodeMessage (EncodeMessage
        { role := "assistant"
          content := [{ type := "text", text := "hi" }]
          reasoning := "because"
          toolCalls := [{ index := 0, id := "c1", type_ := "function"
                          fcall := { name := "f", args := "", buff := ["\x7ba\x7d"] } }] })).toolCalls.map
        toolCallTuple
      = [("c1", "f", "\x7ba\x7d")] :=
  (encode_decode_roundtrip _).2.2.2.trans (by decide)

/-! ## C2 — Content() is the ordered concatenation of text parts -/

/-- C2: for every unified message — in particular every message built by the
factories — `Content()` is the in-order concatenation of the text of its
text-typed parts, non-text parts contribute nothing, and a message with no
text-typed parts yields `""`.  `Content` is total: it never fails. -/
theorem content_is_ordered_text_concat (m : Llmmsg) :
    m.Content = specTextConcat m.content ∧
    ((∀ p ∈ m.content, p.type ≠ contentPartTypeText) → m.Content = "") ∧
    (∀ c, (NewSystemMessage c).Content = c) ∧
    (∀ c, (NewUserMessage c []).Content = c) ∧
    (∀ tc r, (NewToolMessage tc r).Content = r) := by
  refine ⟨m.Content_eq_specTextConcat, ?_, ?_, ?_, ?_⟩
  · intro h
    rw [m.Content_eq_specTextConcat]
    exact specTextConcat_eq_empty h
  · intro c
    rw [(NewSystemMessage c).Content_eq_specTextConcat]
    simp [NewSystemMessage, specTextConcat]
  · intro c
    rw [(NewUserMessage c []).Content_eq_specTextConcat]
    simp [NewUserMessage, specTextConcat]
  · intro tc r
    rw [(NewToolMessage tc r).Content_eq_specTextConcat]
    simp [NewToolMessage, specTextConcat]

/-- C2 witness: a user message carrying only an image part flattens to the
empty string. -/
theorem content_is_ordered_text_concat_witness :
    (NewUserMessage "" [{ url := "http://x/p.png", detail := "auto" }]).Content = "" :=
  (content_is_ordered_text_concat _).2.1 (by decide)

/-! ## C6 — empty backend response surfaces `ErrEmptyChoices` -/

/-- C6: on a blocking call, a backend response with zero content segments
(zero OpenAI choices / zero Anthropic content blocks) makes the adapter
return the `ErrEmptyChoices` error; the error constructor carries no message,
so no (zero-value) message is ever paired with it, and the adapters return it
directly without any internal retry. -/
theorem empty_response_policy :
    openAIChatCompletion [] = Except.error LLMError.emptyChoices ∧
    anthropicChatCompletion [] = Except.error LLMError.emptyChoices :=
  ⟨rfl, rfl⟩

/-! ## C10 — image-URL detail normalisation -/

/-- C10: `WithImageURLDetail` records the given detail when it is one of
`low`, `high`, `auto` and silently normalises anything else to `auto`;
`WithImageURL` coincides with `WithImageURLDetail` at detail `auto`. -/
theorem with_image_url_detail_normalizes (url d : String) (opts : List ImageURL) :
    ((d = imageURLDetailLow ∨ d = imageURLDetailHigh ∨ d = imageURLDetailAuto) →
        WithImageURLDetail url d opts = opts ++ [{ url := url, detail := d }]) ∧
    (¬(d = imageURLDetailLow ∨ d = imageURLDetailHigh ∨ d = imageURLDetailAuto) →
        WithImageURLDetail url d opts = opts ++ [{ url := url, detail := imageURLDetailAuto }]) ∧
    WithImageURL url opts = WithImageURLDetail url imageURLDetailAuto opts := by
  refine ⟨?_, ?_, rfl⟩
  · rintro (h | h | h) <;> subst h <;> rfl
  · intro h
    push_neg at h
    obtain ⟨h1, h2, h3⟩ := h
    simp [WithImageURLDetail, h1, h2, h3]

/-- C10 witness: an unknown detail value is normalised to `auto`, a known one
is kept. -/
theorem with_image_url_detail_normalizes_witness :
    WithImageURLDetail "u" "weird" [] = [{ url := "u", detail := imageURLDetailAuto }] ∧
    WithImageURLDetail "u" "low" [] = [{ url := "u", detail := "low" }] :=
  ⟨(with_image_url_detail_normalizes "u" "weird" []).2.1 (by decide),
   (with_image_url_detail_normalizes "u" "low" []).1 (Or.inl rfl)⟩

/-! ## C8 — appending at an undeclared index is a silent no-op -/

/-- C8: appending an argument fragment at an index at which no tool call was
declared leaves the accumulator state — the index-to-call mapping and every
accumulated call's arguments — unchanged; `appendArguments` is total, so no
error is raised. -/
theorem append_undeclared_is_noop (st : AccState) (index : Int) (frag : String)
    (h : mapLookup st index = none) :
    appendArguments st index frag = st := by
  rw [mapLookup] at h
  have hfind : st.find? (fun p => p.1 = index) = none := by
    cases hf : st.find? (fun p => p.1 = index) with
    | none => rfl
    | some p => rw [hf] at h; simp at h
  have hall := List.find?_eq_none.1 hfind
  rw [appendArguments]
  have : st.map (fun p =>
      if p.1 = index then (p.1, { p.2 with fcall := p.2.fcall.writeArgs frag }) else p)
      = st.map id :=
    List.map_congr_left fun p hp => by
      rw [if_neg (by simpa using hall p hp)]; rfl
  rw [this, List.map_id]

/-- C8 witness: appending at index 1 when only index 0 is declared changes
nothing. -/
theorem append_undeclared_is_noop_witness :
    appendArguments (declareCall [] 0 "id0" "f") 1 "frag"
      = declareCall [] 0 "id0" "f" :=
  append_undeclared_is_noop _ 1 "frag" (by decide)

/-! ## C4 — argument fragments concatenate in arrival order -/

lemma foldl_appendArguments_single (frags : List String) (tc : Toolcall) (k : Int) :
    frags.foldl (fun st f => appendArguments st k f) [(k, tc)]
      = [(k, { tc with fcall := { tc.fcall with buff := tc.fcall.buff ++ frags } })] := by
  induction frags generalizing tc with
  | nil => simp
  | cons f fs ih =>
    rw [List.foldl_cons,
      show appendArguments [(k, tc)] k f
          = [(k, { tc with fcall := tc.fcall.writeArgs f })] from by
        simp [appendArguments],
      ih]
    simp [Funcall.writeArgs]

/-- C4: for a call declared at index 0 and fed a sequence of argument
fragments, `Arguments()` is exactly the concatenation of the fragments in
arrival order; on the concrete fragments of the claim, the in-order feed
yields `{"a":1}` while the reversed feed yields the different reversed
concatenation — fragments are never reordered. -/
theorem arguments_concat_in_arrival_order :
    (∀ (id nm : String) (frags : List String),
        (mapLookup (frags.foldl (fun st f => appendArguments st 0 f)
            (declareCall [] 0 id nm)) 0).map (fun tc => tc.fcall.arguments)
          = some (String.join frags)) ∧
    ((mapLookup ((["\x7b\"a\":", "1\x7d"].foldl (fun st f => appendArguments st 0 f)
          (declareCall [] 0 "id" "f"))) 0).map (fun tc => tc.fcall.arguments)
        = some "\x7b\"a\":1\x7d") ∧
    ((mapLookup ((["1\x7d", "\x7b\"a\":"].foldl (fun st f => appendArguments st 0 f)
          (declareCall [] 0 "id" "f"))) 0).map (fun tc => tc.fcall.arguments)
        = some "1\x7d\x7b\"a\":") ∧
    ("1\x7d\x7b\"a\":" ≠ "\x7b\"a\":1\x7d") := by
  refine ⟨?_, by decide, by decide, by decide⟩
  intro id nm frags
  show (mapLookup _ 0).map _ = some (String.join frags)
  rw [show declareCall [] 0 id nm
      = [((0 : Int), { index := 0, id := id, type_ := toolTypeFunction
                       fcall := { name := nm } })] from rfl,
    foldl_appendArguments_single]
  simp [mapLookup, Funcall.arguments, Funcall.buffString]

/-! ## C5 — Anthropic reasoning budget -/

/-- C5 counterexample: the claim says a `low` budget is clamped to
`max_tokens - 64` whenever `max_tokens` is below 1088; at `max_tokens = 1080`
(which is below 1088 and above 64) the code leaves the budget at 1024
(1024 < 1080 means no clamp fires), not `1080 - 64 = 1016`. -/
theorem reasoning_budget_claim_counterexample :
    anthropicThinkingBudget reasoningEffortLow (some 1080) = some 1024 ∧
    (1080 : Int) < 1088 ∧ (64 : Int) < 1080 ∧
    anthropicThinkingBudget reasoningEffortLow (some 1080) ≠ some (1080 - 64) := by
  refine ⟨by decide, by decide, by decide, by decide⟩

/-- C5 amended: `WithReasoning("low")` configures a budget of 1024 whenever
`max_tokens` exceeds 1024 (including the 4096 default used when `max_tokens`
is unset); when `max_tokens ≤ 1024` the budget is clamped to `max_tokens - 64`
(or `max_tokens - 1` when `max_tokens ≤ 64`, and thinking is not configured
at all when the clamped budget is not positive).  Medium and high map to 4096
and 8192 before the same clamp, and every configured budget is strictly below
`max_tokens`. -/
theorem reasoning_budget_mapping (mt : Int) :
    (anthropicThinkingBudget reasoningEffortLow none = some 1024) ∧
    (1024 < mt → anthropicThinkingBudget reasoningEffortLow (some mt) = some 1024) ∧
    (64 < mt ∧ mt ≤ 1024 →
        anthropicThinkingBudget reasoningEffortLow (some mt) = some (mt - 64)) ∧
    (1 < mt ∧ mt ≤ 64 →
        anthropicThinkingBudget reasoningEffortLow (some mt) = some (mt - 1)) ∧
    (mt ≤ 1 → anthropicThinkingBudget reasoningEffortLow (some mt) = none) ∧
    (4096 < mt → anthropicThinkingBudget reasoningEffortMedium (some mt) = some 4096) ∧
    (64 < mt ∧ mt ≤ 4096 →
        anthropicThinkingBudget reasoningEffortMedium (some mt) = some (mt - 64)) ∧
    (8192 < mt → anthropicThinkingBudget reasoningEffortHigh (some mt) = some 8192) ∧
    (64 < mt ∧ mt ≤ 8192 →
        anthropicThinkingBudget reasoningEffortHigh (some mt) = some (mt - 64)) ∧
    (∀ effort b, anthropicThinkingBudget effort (some mt) = some b → b < mt) := by
  refine ⟨by decide, ?_, ?_, ?_, ?_, ?_, ?_, ?_, ?_, ?_⟩
  all_goals
    intro h
    simp only [anthropicThinkingBudget, reasoningEffortLow, reasoningEffortMedium,
      reasoningEffortHigh, Option.getD_some]
    split_ifs <;> simp_all <;> omega

/-- C5 witness: the amended mapping evaluated at `max_tokens = 500` (clamped
low budget 436) and `max_tokens = 2000` (unclamped low budget 1024). -/
theorem reasoning_budget_mapping_witness :
    anthropicThinkingBudget reasoningEffortLow (some 500) = some (500 - 64) ∧
    anthropicThinkingBudget reasoningEffortLow (some 2000) = some 1024 :=
  ⟨(reasoning_budget_mapping 500).2.2.1 ⟨by decide, by decide⟩,
   (reasoning_budget_mapping 2000).2.1 (by decide)⟩

/-! ## C3 — finalize is strictly index-sorted with unique indices -/

lemma accInv_nil : AccInv [] := by simp [AccInv]

lemma accInv_mapInsert {st : AccState} {k : Int} {v : Toolcall}
    (h : AccInv st) (hv : v.index = k) : AccInv (mapInsert st k v) := by
  obtain ⟨hkeys, hvals⟩ := h
  rw [mapInsert]
  by_cases hin : st.any (fun p => p.1 = k)
  · rw [if_pos hin]
    constructor
    · have : (st.map (fun p => if p.1 = k then (k, v) else p)).map Prod.fst
          = st.map Prod.fst := by
        rw [List.map_map]
        refine List.map_congr_left fun p _ => ?_
        by_cases hp : p.1 = k
        · rw [Function.comp_apply, if_pos hp]; exact hp.symm
        · rw [Function.comp_apply, if_neg hp]
      rw [this]; exact hkeys
    · intro q hq
      obtain ⟨p, hp, hpq⟩ := List.mem_map.1 hq
      by_cases hpk : p.1 = k
      · rw [if_pos hpk] at hpq; rw [← hpq]; exact hv
      · rw [if_neg hpk] at hpq; rw [← hpq]; exact hvals p hp
  · rw [if_neg hin]
    constructor
    · rw [List.map_append]
      refine List.Nodup.append hkeys (by simp) ?_
      intro a ha hb
      simp only [List.map_cons, List.map_nil, List.mem_singleton] at hb
      subst hb
      obtain ⟨p, hp, hpk⟩ := List.mem_map.1 ha
      rw [List.any_eq_true] at hin
      exact hin ⟨p, hp, by simp [hpk]⟩
    · intro q hq
      rcases List.mem_append.1 hq with hq | hq
      · exact hvals q hq
      · simp only [List.mem_singleton] at hq; rw [hq]; exact hv

lemma accInv_declareCall {st : AccState} (h : AccInv st) (index : Int)
    (id name : String) : AccInv (declareCall st index id name) :=
  accInv_mapInsert h rfl

lemma accInv_appendArguments {st : AccState} (h : AccInv st) (index : Int)
    (frag : String) : AccInv (appendArguments st index frag) := by
  obtain ⟨hkeys, hvals⟩ := h
  rw [appendArguments]
  constructor
  · have : (st.map (fun p =>
        if p.1 = index then (p.1, { p.2 with fcall := p.2.fcall.writeArgs frag })
        else p)).map Prod.fst = st.map Prod.fst := by
      rw [List.map_map]
      refine List.map_congr_left fun p _ => ?_
      by_cases hp : p.1 = index
      · rw [Function.comp_apply, if_pos hp]
      · rw [Function.comp_apply, if_neg hp]
    rw [this]; exact hkeys
  · intro q hq
    obtain ⟨p, hp, hpq⟩ := List.mem_map.1 hq
    by_cases hpk : p.1 = index
    · rw [if_pos hpk] at hpq; rw [← hpq]; exact hvals p hp
    · rw [if_neg hpk] at hpq; rw [← hpq]; exact hvals p hp

lemma accInv_stepAcc {st : AccState} (h : AccInv st) (e : AccEvent) :
    AccInv (stepAcc st e) := by
  cases e with
  | declare index id name => exact accInv_declareCall h index id name
  | append index fragment => exact accInv_appendArguments h index fragment

lemma accInv_runAcc (events : List AccEvent) : AccInv (runAcc events) := by
  rw [runAcc]
  induction events using List.reverseRecOn with
  | nil => exact accInv_nil
  | append_singleton l e ih => rw [List.foldl_append, List.foldl_cons, List.foldl_nil]
                               exact accInv_stepAcc ih e

lemma pairwise_lt_of_le_of_nodup {l : List Toolcall}
    (h1 : l.Pairwise (fun a b => a.index ≤ b.index))
    (h2 : (l.map (fun tc => tc.index)).Nodup) :
    l.Pairwise (fun a b => a.index < b.index) := by
  induction l with
  | nil => exact List.Pairwise.nil
  | cons a l ih =>
    rw [List.pairwise_cons] at h1 ⊢
    rw [List.map_cons, List.nodup_cons] at h2
    refine ⟨fun b hb => lt_of_le_of_ne (h1.1 b hb) fun he => h2.1 ?_, ih h1.2 h2.2⟩
    rw [he]
    exact List.mem_map_of_mem _ hb

lemma finalizeAcc_pairwise {st : AccState} (h : AccInv st) :
    (finalizeAcc st).Pairwise (fun a b => a.index < b.index) := by
  obtain ⟨hkeys, hvals⟩ := h
  rw [finalizeAcc]
  haveI : IsTotal Toolcall (fun a b => a.index ≤ b.index) :=
    ⟨fun a b => Int.le_total a.index b.index⟩
  haveI : IsTrans Toolcall (fun a b => a.index ≤ b.index) :=
    ⟨fun a b c hab hbc => le_trans hab hbc⟩
  refine pairwise_lt_of_le_of_nodup ?_ ?_
  · exact List.sorted_insertionSort _ _
  · have hperm := List.perm_insertionSort
      (fun (a b : Toolcall) => a.index ≤ b.index) (st.map (fun p => p.2))
    have hmapperm := hperm.map (fun tc => tc.index)
    refine hmapperm.nodup_iff.2 ?_
    have : (st.map (fun p => p.2)).map (fun tc => tc.index) = st.map Prod.fst := by
      rw [List.map_map]
      exact List.map_congr_left fun p hp => hvals p hp
    rw [this]
    exact hkeys

lemma invokeWatcher_fst_callm (w : Option ObsFn) (st : StreamState) (c : ObsCall) :
    (invokeWatcher w st c).1.callm = st.callm := by
  cases w <;> rfl

lemma stepToolDeltas_accInv (w : Option ObsFn) :
    ∀ (l : List OpenAIDeltaToolCall) (st st' : StreamState),
      stepToolDeltas w st l = Except.ok st' → AccInv st.callm → AccInv st'.callm := by
  intro l
  induction l with
  | nil =>
    intro st st' h hinv
    rw [stepToolDeltas] at h
    cases h
    exact hinv
  | cons call rest ih =>
    intro st st' h hinv
    rw [stepToolDeltas] at h
    cases hidx : call.index with
    | none =>
      rw [hidx] at h
      exact ih st st' h hinv
    | some index =>
      rw [hidx] at h
      simp only [] at h
      by_cases hdecl : call.type_ = toolTypeFunction ∧ call.name ≠ ""
      · rw [if_pos hdecl] at h
        rcases hw : invokeWatcher w st (ObsCall.onToolCall index "") with ⟨st1, e1⟩
        rw [hw] at h
        have hc1 : st1.callm = st.callm := by
          have := invokeWatcher_fst_callm w st (ObsCall.onToolCall index "")
          rw [hw] at this
          exact this
        cases e1 with
        | some err => exact absurd h (by simp)
        | none =>
          simp only [] at h
          set st2 : StreamState :=
            { st1 with callm := declareCall st1.callm index call.id call.name } with hst2
          have hinv2 : AccInv st2.callm := by
            rw [hst2]
            simp only []
            rw [hc1]
            exact accInv_declareCall hinv index call.id call.name
          by_cases harg : call.arguments ≠ ""
          · rw [if_pos harg] at h
            cases hlook : mapLookup st2.callm index with
            | none =>
              rw [hlook] at h
              exact ih st2 st' h hinv2
            | some tc =>
              rw [hlook] at h
              rcases hw2 : invokeWatcher w st2 (ObsCall.onToolCall index call.arguments)
                with ⟨st3, e3⟩
              rw [hw2] at h
              have hc3 : st3.callm = st2.callm := by
                have := invokeWatcher_fst_callm w st2 (ObsCall.onToolCall index call.arguments)
                rw [hw2] at this
                exact this
              cases e3 with
              | some err => exact absurd h (by simp)
              | none =>
                refine ih _ st' h ?_
                simp only []
                rw [hc3]
                exact accInv_appendArguments hinv2 index call.arguments
          · rw [if_neg harg] at h
            exact ih st2 st' h hinv2
      · rw [if_neg hdecl] at h
        simp only [] at h
        by_cases harg : call.arguments ≠ ""
        · rw [if_pos harg] at h
          cases hlook : mapLookup st.callm index with
          | none =>
            rw [hlook] at h
            exact ih st st' h hinv
          | some tc =>
            rw [hlook] at h
            rcases hw2 : invokeWatcher w st (ObsCall.onToolCall index call.arguments)
              with ⟨st3, e3⟩
            rw [hw2] at h
            have hc3 : st3.callm = st.callm := by
              have := invokeWatcher_fst_callm w st (ObsCall.onToolCall index call.arguments)
              rw [hw2] at this
              exact this
            cases e3 with
            | some err => exact absurd h (by simp)
            | none =>
              refine ih _ st' h ?_
              simp only []
              rw [hc3]
              exact accInv_appendArguments hinv index call.arguments
        · rw [if_neg harg] at h
          exact ih st st' h hinv

lemma deltaStage_ok_callm {w : Option ObsFn} {st st' : StreamState} {chunk : String}
    {mk : String → ObsCall} (write : StreamState → String → StreamState)
    (hwrite : ∀ s c, (write s c).callm = s.callm)
    (h : deltaStage w st chunk mk write = Except.ok st') : st'.callm = st.callm := by
  rw [deltaStage] at h
  by_cases hc : chunk ≠ ""
  · rw [if_pos hc] at h
    rcases hw : invokeWatcher w st (mk chunk) with ⟨st1, e1⟩
    rw [hw] at h
    cases e1 with
    | some err => exact absurd h (by simp)
    | none =>
      simp only [Except.ok.injEq] at h
      rw [← h, hwrite]
      have := invokeWatcher_fst_callm w st (mk chunk)
      rw [hw] at this
      exact this
  · rw [if_neg hc] at h
    cases h
    rfl

lemma stepFrame_accInv (w : Option ObsFn) (st st' : StreamState)
    (frame : OpenAIStreamFrame) (h : stepFrame w st frame = Except.ok st')
    (hinv : AccInv st.callm) : AccInv st'.callm := by
  rw [stepFrame] at h
  cases hch : frame.choices with
  | nil =>
    rw [hch] at h
    cases h
    exact hinv
  | cons choice tail =>
    rw [hch] at h
    simp only [] at h
    set stR : StreamState :=
      if choice.role ≠ "" ∧ st.role = "" then { st with role := choice.role } else st
      with hstR
    have hcR : stR.callm = st.callm := by
      rw [hstR]
      by_cases hr : choice.role ≠ "" ∧ st.role = "" <;> simp [hr]
    cases h1 : deltaStage w stR choice.reasoningContent ObsCall.onReasoning writeReasoning with
    | error r => rw [h1] at h; exact absurd h (by simp)
    | ok st2 =>
      rw [h1] at h
      simp only [] at h
      cases h2 : deltaStage w st2 choice.content ObsCall.onContent writeContent with
      | error r => rw [h2] at h; exact absurd h (by simp)
      | ok st4 =>
        rw [h2] at h
        simp only [] at h
        cases h3 : deltaStage w st4 choice.refusal ObsCall.onRefusal writeRefusal with
        | error r => rw [h3] at h; exact absurd h (by simp)
        | ok st6 =>
          rw [h3] at h
          simp only [] at h
          refine stepToolDeltas_accInv w choice.toolCalls st6 st' h ?_
          rw [deltaStage_ok_callm writeRefusal (fun s c => rfl) h3,
            deltaStage_ok_callm writeContent (fun s c => rfl) h2,
            deltaStage_ok_callm writeReasoning (fun s c => rfl) h1, hcR]
          exact hinv

lemma runFrames_accInv (w : Option ObsFn) :
    ∀ (frames : List OpenAIStreamFrame) (st st' : StreamState),
      runFrames w st frames = Except.ok st' → AccInv st.callm → AccInv st'.callm := by
  intro frames
  induction frames with
  | nil =>
    intro st st' h hinv
    cases h
    exact hinv
  | cons f rest ih =>
    intro st st' h hinv
    rw [runFrames] at h
    cases hf : stepFrame w st f with
    | error r => rw [hf] at h; exact absurd h (by simp)
    | ok st1 =>
      rw [hf] at h
      exact ih st1 st' h (stepFrame_accInv w st st1 f hf hinv)

/-- C3: the tool-call sequence in the `Response` of a streaming completion is
sorted strictly ascending by index with no duplicate indices, whatever the
arrival order and interleaving of declaration and argument-delta events: the
first conjunct states it for any event list fed to the accumulator, the
second for the whole modelled OpenAI streaming loop under any watcher. -/
theorem stream_toolcalls_sorted_strictly_by_index :
    (∀ events : List AccEvent,
        (finalizeAcc (runAcc events)).Pairwise (fun a b => a.index < b.index)) ∧
    (∀ (w : Option ObsFn) (frames : List OpenAIStreamFrame) (res : ChatResult),
        (openAIChatCompletionStream w frames).2 = Except.ok res →
        res.tcalls.Pairwise (fun a b => a.index < b.index)) := by
  constructor
  · exact fun events => finalizeAcc_pairwise (accInv_runAcc events)
  · intro w frames res h
    rw [openAIChatCompletionStream] at h
    cases hrun : runFrames w {} frames with
    | error r =>
      rw [hrun] at h
      rcases r with ⟨stE, e⟩
      exact absurd h (by simp)
    | ok st =>
      rw [hrun] at h
      simp only [] at h
      rcases hw : invokeWatcher w st ObsCall.onStop with ⟨st1, e1⟩
      rw [hw] at h
      cases e1 with
      | some err => exact absurd h (by simp)
      | none =>
        simp only [Except.ok.injEq] at h
        have hres : res.tcalls = finalizeAcc st1.callm := by rw [← h]
        rw [hres]
        refine finalizeAcc_pairwise ?_
        have hc1 : st1.callm = st.callm := by
          have := invokeWatcher_fst_callm w st ObsCall.onStop
          rw [hw] at this
          exact this
        rw [hc1]
        exact runFrames_accInv w frames {} st hrun accInv_nil

/-- C3 witness: a stream declaring index 1 before index 0 still finalizes in
strictly ascending index order. -/
theorem stream_toolcalls_sorted_strictly_by_index_witness :
    ([{ index := 0, id := "a", type_ := "function"
        fcall := { name := "f", args := "", buff := ["\x7b\x7d"] } },
      { index := 1, id := "b", type_ := "function"
        fcall := { name := "g", args := "", buff := [] } }] : List Toolcall).Pairwise
      (fun a b => a.index < b.index) :=
  stream_toolcalls_sorted_strictly_by_index.2 none
    [{ choices := [{ toolCalls := [{ index := some 1, id := "b", type_ := toolTypeFunction
                                     name := "g", arguments := "" }] }] },
     { choices := [{ toolCalls := [{ index := some 0, id := "a", type_ := toolTypeFunction
                                     name := "f", arguments := "\x7b\x7d" }] }] }]
    { answer :=
        { role := ""
          content := []
          toolCalls := [{ index := 0, id := "a", type_ := "function"
                          fcall := { name := "f", args := "\x7b\x7d", buff := [] } },
                        { index := 1, id := "b", type_ := "function"
                          fcall := { name := "g", args := "", buff := [] } }] }
      tcalls := [{ index := 0, id := "a", type_ := "function"
                   fcall := { name := "f", args := "", buff := ["\x7b\x7d"] } },
                 { index := 1, id := "b", type_ := "function"
                   fcall := { name := "g", args := "", buff := [] } }] }
    (by rfl)

/-! ## C9 — role captured once, from the first non-empty role frame -/

lemma deltaStage_none (st : StreamState) (chunk : String) (mk : String → ObsCall)
    (write : StreamState → String → StreamState) :
    deltaStage none st chunk mk write
      = Except.ok (if chunk ≠ "" then write st chunk else st) := by
  rw [deltaStage]
  by_cases h : chunk ≠ ""
  · rw [if_pos h, if_pos h]; rfl
  · rw [if_neg h, if_neg h]

lemma stepToolDeltas_none_role :
    ∀ (l : List OpenAIDeltaToolCall) (st : StreamState),
      ∃ st', stepToolDeltas (none : Option ObsFn) st l = Except.ok st' ∧
        st'.role = st.role := by
  intro l
  induction l with
  | nil => exact fun st => ⟨st, rfl, rfl⟩
  | cons call rest ih =>
    intro st
    rw [stepToolDeltas]
    cases hidx : call.index with
    | none => exact ih st
    | some index =>
      simp only [invokeWatcher]
      by_cases hdecl : call.type_ = toolTypeFunction ∧ call.name ≠ ""
      · rw [if_pos hdecl]
        simp only []
        by_cases harg : call.arguments ≠ ""
        · rw [if_pos harg]
          cases hlook :
              mapLookup (declareCall st.callm index call.id call.name) index with
          | none => exact ih _
          | some tc =>
            simp only []
            exact ih _
        · rw [if_neg harg]
          exact ih _
      · rw [if_neg hdecl]
        simp only []
        by_cases harg : call.arguments ≠ ""
        · rw [if_pos harg]
          cases hlook : mapLookup st.callm index with
          | none => exact ih _
          | some tc =>
            simp only []
            exact ih _
        · rw [if_neg harg]
          exact ih _

lemma stepFrame_none_role (st : StreamState) (frame : OpenAIStreamFrame) :
    ∃ st', stepFrame (none : Option ObsFn) st frame = Except.ok st' ∧
      st'.role = roleStepFrame st.role frame := by
  rw [stepFrame, roleStepFrame]
  cases hch : frame.choices with
  | nil => exact ⟨st, rfl, rfl⟩
  | cons choice tail =>
    simp only []
    set stR : StreamState :=
      if choice.role ≠ "" ∧ st.role = "" then { st with role := choice.role } else st
      with hstR
    have hRrole : stR.role = if choice.role ≠ "" ∧ st.role = "" then choice.role else st.role := by
      rw [hstR]
      by_cases hr : choice.role ≠ "" ∧ st.role = "" <;> simp [hr]
    rw [deltaStage_none]
    simp only []
    rw [deltaStage_none]
    simp only []
    rw [deltaStage_none]
    simp only []
    obtain ⟨st', h1, h2⟩ := stepToolDeltas_none_role choice.toolCalls _
    refine ⟨st', h1, ?_⟩
    rw [h2]
    by_cases h1c : choice.reasoningContent ≠ "" <;>
      by_cases h2c : choice.content ≠ "" <;>
      by_cases h3c : choice.refusal ≠ "" <;>
      simp only [h1c, h2c, h3c, if_true, if_false, ite_true, ite_false, ite_not,
        writeReasoning, writeContent, writeRefusal, if_pos, if_neg, not_true, not_false_iff,
        ne_eq, not_not] <;>
      exact hRrole

lemma runFrames_none_role :
    ∀ (frames : List OpenAIStreamFrame) (st : StreamState),
      ∃ st', runFrames (none : Option ObsFn) st frames = Except.ok st' ∧
        st'.role = frames.foldl roleStepFrame st.role := by
  intro frames
  induction frames with
  | nil => exact fun st => ⟨st, rfl, rfl⟩
  | cons f rest ih =>
    intro st
    rw [runFrames]
    obtain ⟨st1, h1, h2⟩ := stepFrame_none_role st f
    rw [h1]
    obtain ⟨st', h3, h4⟩ := ih st1
    refine ⟨st', h3, ?_⟩
    rw [h4, List.foldl_cons, h2]

lemma firstNonempty_cons_ne {r : String} (l : List String) (h : r ≠ "") :
    firstNonempty (r :: l) = r := by
  rw [firstNonempty, List.find?_cons_of_pos _ (by simpa using h), Option.getD_some]

lemma firstNonempty_cons_eq {r : String} (l : List String) (h : r = "") :
    firstNonempty (r :: l) = firstNonempty l := by
  rw [firstNonempty, List.find?_cons_of_neg _ (by simp [h])]
  rfl

lemma foldl_roleStepFrame_eq (frames : List OpenAIStreamFrame) :
    ∀ role : String,
      frames.foldl roleStepFrame role
        = if role = "" then firstNonempty (deltaRoles frames) else role := by
  induction frames with
  | nil =>
    intro role
    by_cases h : role = "" <;> simp [h, firstNonempty, deltaRoles]
  | cons f rest ih =>
    intro role
    rw [List.foldl_cons]
    cases hch : f.choices with
    | nil =>
      rw [show roleStepFrame role f = role from by rw [roleStepFrame, hch]]
      rw [ih role]
      have : deltaRoles (f :: rest) = deltaRoles rest := by
        simp [deltaRoles, hch]
      rw [this]
    | cons choice tail =>
      have hstep : roleStepFrame role f
          = if choice.role ≠ "" ∧ role = "" then choice.role else role := by
        rw [roleStepFrame, hch]
      have hdr : deltaRoles (f :: rest) = choice.role :: deltaRoles rest := by
        simp [deltaRoles, hch]
      rw [hstep, hdr]
      by_cases hrole : role = ""
      · by_cases hcr : choice.role ≠ ""
        · rw [if_pos ⟨hcr, hrole⟩, ih choice.role, if_neg hcr, if_pos hrole,
            firstNonempty_cons_ne _ hcr]
        · rw [if_neg (by tauto), ih role, if_pos hrole, if_pos hrole,
            firstNonempty_cons_eq _ (by simpa using hcr)]
      · rw [if_neg (by tauto), ih role, if_neg hrole, if_neg hrole]

lemma foldl_anthropicRoleStep_assistant :
    ∀ events : List AnthropicStreamEvent,
      events.foldl anthropicRoleStep roleAssistant = roleAssistant := by
  intro events
  induction events with
  | nil => rfl
  | cons ev rest ih =>
    rw [List.foldl_cons]
    cases ev with
    | messageStart r =>
      by_cases hr : r ≠ ""
      · rw [show anthropicRoleStep roleAssistant (AnthropicStreamEvent.messageStart r)
            = roleAssistant from by rw [anthropicRoleStep]; rw [if_pos hr]]
        exact ih
      · rw [show anthropicRoleStep roleAssistant (AnthropicStreamEvent.messageStart r)
            = roleAssistant from by rw [anthropicRoleStep]; rw [if_neg hr]]
        exact ih
    | contentBlockStartToolUse i id name => exact ih
    | textDelta i t => exact ih
    | thinkingDelta i t => exact ih
    | inputJSONDelta i p => exact ih
    | other => exact ih

lemma anthropicRoleFold_eq (events : List AnthropicStreamEvent)
    (h : ∀ r, AnthropicStreamEvent.messageStart r ∈ events → r ≠ "" → r = roleAssistant) :
    anthropicRoleFold events = firstNonempty (msgStartRoles events) := by
  rw [anthropicRoleFold]
  induction events with
  | nil => rfl
  | cons ev rest ih =>
    rw [List.foldl_cons]
    have hrest : ∀ r, AnthropicStreamEvent.messageStart r ∈ rest → r ≠ "" → r = roleAssistant :=
      fun r hr hne => h r (List.mem_cons_of_mem _ hr) hne
    cases ev with
    | messageStart r =>
      by_cases hr : r ≠ ""
      · have hra : r = roleAssistant := h r (List.mem_cons_self _ _) hr
        rw [show anthropicRoleStep "" (AnthropicStreamEvent.messageStart r)
            = roleAssistant from by rw [anthropicRoleStep]; rw [if_pos hr]]
        rw [show msgStartRoles (AnthropicStreamEvent.messageStart r :: rest)
            = r :: msgStartRoles rest from by
          rw [msgStartRoles, List.filterMap_cons]
          simp only []
          rw [msgStartRoles]]
        rw [firstNonempty_cons_ne _ hr, hra]
        exact foldl_anthropicRoleStep_assistant rest
      · rw [show anthropicRoleStep "" (AnthropicStreamEvent.messageStart r)
            = "" from by rw [anthropicRoleStep]; rw [if_neg hr]]
        rw [show msgStartRoles (AnthropicStreamEvent.messageStart r :: rest)
            = r :: msgStartRoles rest from by
          rw [msgStartRoles, List.filterMap_cons]
          simp only []
          rw [msgStartRoles]]
        rw [firstNonempty_cons_eq _ (by simpa using hr)]
        exact ih hrest
    | contentBlockStartToolUse i id name => exact ih hrest
    | textDelta i t => exact ih hrest
    | thinkingDelta i t => exact ih hrest
    | inputJSONDelta i p => exact ih hrest
    | other => exact ih hrest

/-- C9: the role of the message under assembly is captured from the first
frame carrying a non-empty role and never overwritten: the assembled answer's
`Role()` equals the first non-empty role of the stream.  First conjunct: the
OpenAI loop (arbitrary roles; no watcher, which leaves role handling
unchanged).  Second conjunct: the Anthropic loop sets `RoleAssistant` on each
non-empty message-start role, so under the SDK schema (a present role is
always `"assistant"`) the captured role is again the first non-empty one. -/
theorem role_captured_once_from_first_nonempty :
    (∀ frames : List OpenAIStreamFrame,
        ∃ res, (openAIChatCompletionStream none frames).2 = Except.ok res ∧
          res.answer.Role = firstNonempty (deltaRoles frames)) ∧
    (∀ events : List AnthropicStreamEvent,
        (∀ r, AnthropicStreamEvent.messageStart r ∈ events → r ≠ "" → r = roleAssistant) →
        anthropicRoleFold events = firstNonempty (msgStartRoles events)) := by
  constructor
  · intro frames
    obtain ⟨st, h1, h2⟩ := runFrames_none_role frames {}
    rw [openAIChatCompletionStream, h1]
    simp only [invokeWatcher]
    refine ⟨_, rfl, ?_⟩
    show st.role = _
    rw [h2]
    exact (foldl_roleStepFrame_eq frames "").trans (by rw [if_pos rfl])
  · exact anthropicRoleFold_eq

/-- C9 witness: a concrete Anthropic stream whose message-start role is
`"assistant"` (as the SDK schema fixes) captures exactly that role. -/
theorem role_captured_once_from_first_nonempty_witness :
    anthropicRoleFold [AnthropicStreamEvent.messageStart "assistant",
        AnthropicStreamEvent.textDelta 0 "hi"]
      = firstNonempty (msgStartRoles [AnthropicStreamEvent.messageStart "assistant",
          AnthropicStreamEvent.textDelta 0 "hi"]) :=
  role_captured_once_from_first_nonempty.2 _
    (fun r hr hne => by simpa [roleAssistant] using hr)

/-! ## C7 — an observer error on the second content delta aborts the stream -/

lemma countContent_append (a b : List ObsCall) :
    countContent (a ++ b) = countContent a + countContent b := by
  simp [countContent, List.filter_append]

lemma obs2_nonContent (e : LLMError) (tr : List ObsCall) (c : ObsCall)
    (h : isContentCall c = false) : obsErrOnSecondContent e tr c = none := by
  cases c <;> first | rfl | simp [isContentCall] at h

lemma obs2_content_zero (e : LLMError) (tr : List ObsCall) (s : String)
    (h : countContent tr = 0) :
    obsErrOnSecondContent e tr (ObsCall.onContent s) = none := by
  rw [obsErrOnSecondContent]
  rw [if_neg (by omega)]

lemma obs2_content_one (e : LLMError) (tr : List ObsCall) (s : String)
    (h : countContent tr = 1) :
    obsErrOnSecondContent e tr (ObsCall.onContent s) = some e := by
  rw [obsErrOnSecondContent]
  rw [if_pos h]

lemma deltaStage_chunk_empty (w : Option ObsFn) (st : StreamState) (chunk : String)
    (mk : String → ObsCall) (write : StreamState → String → StreamState)
    (h : ¬chunk ≠ "") : deltaStage w st chunk mk write = Except.ok st := by
  rw [deltaStage, if_neg h]

lemma deltaStage_some_ok {obs : ObsFn} {st : StreamState} {chunk : String}
    {mk : String → ObsCall} {write : StreamState → String → StreamState}
    (hc : chunk ≠ "") (h : obs st.trace (mk chunk) = none) :
    deltaStage (some obs) st chunk mk write
      = Except.ok (write { st with trace := st.trace ++ [mk chunk] } chunk) := by
  rw [deltaStage, if_pos hc]
  simp only [invokeWatcher, h]

lemma deltaStage_some_err {obs : ObsFn} {st : StreamState} {chunk : String}
    {mk : String → ObsCall} {write : StreamState → String → StreamState}
    {err : LLMError} (hc : chunk ≠ "") (h : obs st.trace (mk chunk) = some err) :
    deltaStage (some obs) st chunk mk write
      = Except.error ({ st with trace := st.trace ++ [mk chunk] }, err) := by
  rw [deltaStage, if_pos hc]
  simp only [invokeWatcher, h]

lemma stepToolDeltas_obs2 (e : LLMError) :
    ∀ (l : List OpenAIDeltaToolCall) (st : StreamState),
      ∃ st' ext, stepToolDeltas (some (obsErrOnSecondContent e)) st l = Except.ok st' ∧
        st'.trace = st.trace ++ ext ∧
        ∀ c ∈ ext, isContentCall c = false ∧ c ≠ ObsCall.onStop := by
  intro l
  induction l with
  | nil => exact fun st => ⟨st, [], rfl, by simp, by simp⟩
  | cons call rest ih =>
    intro st
    rw [stepToolDeltas]
    cases hidx : call.index with
    | none => exact ih st
    | some index =>
      simp only [invokeWatcher]
      by_cases hdecl : call.type_ = toolTypeFunction ∧ call.name ≠ ""
      · rw [if_pos hdecl]
        rw [obs2_nonContent e st.trace (ObsCall.onToolCall index "") rfl]
        simp only []
        by_cases harg : call.arguments ≠ ""
        · rw [if_pos harg]
          cases hlook : mapLookup
              (declareCall st.callm index call.id call.name) index with
          | none =>
            obtain ⟨st', ext, h1, h2, h3⟩ := ih _
            refine ⟨st', ObsCall.onToolCall index "" :: ext, h1, ?_, ?_⟩
            · rw [h2]; simp
            · intro c hc
              rcases List.mem_cons.1 hc with hc | hc
              · subst hc; exact ⟨rfl, by simp⟩
              · exact h3 c hc
          | some tc =>
            simp only []
            rw [obs2_nonContent e _ (ObsCall.onToolCall index call.arguments) rfl]
            simp only []
            obtain ⟨st', ext, h1, h2, h3⟩ := ih _
            refine ⟨st', ObsCall.onToolCall index "" :: ObsCall.onToolCall index call.arguments :: ext,
              h1, ?_, ?_⟩
            · rw [h2]; simp
            · intro c hc
              rcases List.mem_cons.1 hc with hc | hc
              · subst hc; exact ⟨rfl, by simp⟩
              rcases List.mem_cons.1 hc with hc | hc
              · subst hc; exact ⟨rfl, by simp⟩
              · exact h3 c hc
        · rw [if_neg harg]
          obtain ⟨st', ext, h1, h2, h3⟩ := ih _
          refine ⟨st', ObsCall.onToolCall index "" :: ext, h1, ?_, ?_⟩
          · rw [h2]; simp
          · intro c hc
            rcases List.mem_cons.1 hc with hc | hc
            · subst hc; exact ⟨rfl, by simp⟩
            · exact h3 c hc
      · rw [if_neg hdecl]
        simp only []
        by_cases harg : call.arguments ≠ ""
        · rw [if_pos harg]
          cases hlook : mapLookup st.callm index with
          | none => exact ih st
          | some tc =>
            simp only []
            rw [obs2_nonContent e _ (ObsCall.onToolCall index call.arguments) rfl]
            simp only []
            obtain ⟨st', ext, h1, h2, h3⟩ := ih _
            refine ⟨st', ObsCall.onToolCall index call.arguments :: ext, h1, ?_, ?_⟩
            · rw [h2]; simp
            · intro c hc
              rcases List.mem_cons.1 hc with hc | hc
              · subst hc; exact ⟨rfl, by simp⟩
              · exact h3 c hc
        · rw [if_neg harg]
          exact ih st

lemma refusalThenTools_obs2 (e : LLMError) (st : StreamState) (refusal : String)
    (tl : List OpenAIDeltaToolCall) :
    ∃ st' ext,
      (match deltaStage (some (obsErrOnSecondContent e)) st refusal
          ObsCall.onRefusal writeRefusal with
        | Except.error r => Except.error r
        | Except.ok st6 => stepToolDeltas (some (obsErrOnSecondContent e)) st6 tl)
        = Except.ok st' ∧
      st'.trace = st.trace ++ ext ∧
      ∀ c ∈ ext, isContentCall c = false ∧ c ≠ ObsCall.onStop := by
  by_cases hrf : refusal ≠ ""
  · rw [deltaStage_some_ok hrf (obs2_nonContent _ _ _ (by rfl))]
    simp only []
    obtain ⟨st', ext, h1, h2, h3⟩ := stepToolDeltas_obs2 e tl _
    refine ⟨st', ObsCall.onRefusal refusal :: ext, h1, ?_, ?_⟩
    · rw [h2]; simp [writeRefusal]
    · intro c hc
      rcases List.mem_cons.1 hc with hc | hc
      · subst hc; exact ⟨rfl, by simp⟩
      · exact h3 c hc
  · rw [deltaStage_chunk_empty _ _ _ _ _ hrf]
    simp only []
    exact stepToolDeltas_obs2 e tl st

lemma stepFrame_obs2_nochunk (e : LLMError) (st : StreamState) (frame : OpenAIStreamFrame)
    (hno : frameContentChunk frame = none) :
    ∃ st' ext, stepFrame (some (obsErrOnSecondContent e)) st frame = Except.ok st' ∧
      st'.trace = st.trace ++ ext ∧
      ∀ c ∈ ext, isContentCall c = false ∧ c ≠ ObsCall.onStop := by
  rw [stepFrame]
  cases hch : frame.choices with
  | nil => exact ⟨st, [], rfl, by simp, by simp⟩
  | cons choice tail =>
    simp only []
    have hcc : ¬choice.content ≠ "" := by
      rw [frameContentChunk, hch] at hno
      simp only [List.head?_cons, Option.some_bind] at hno
      by_cases hx : choice.content ≠ ""
      · rw [if_pos hx] at hno; exact absurd hno (by simp)
      · exact hx
    set stR : StreamState :=
      if choice.role ≠ "" ∧ st.role = "" then { st with role := choice.role } else st
      with hstR
    have htR : stR.trace = st.trace := by
      rw [hstR]; by_cases hr : choice.role ≠ "" ∧ st.role = "" <;> simp [hr]
    by_cases hre : choice.reasoningContent ≠ ""
    · rw [deltaStage_some_ok hre (obs2_nonContent _ _ _ (by rfl))]
      simp only []
      rw [deltaStage_chunk_empty _ _ _ _ _ hcc]
      simp only []
      obtain ⟨st', ext, h1, h2, h3⟩ := refusalThenTools_obs2 e _ choice.refusal choice.toolCalls
      refine ⟨st', ObsCall.onReasoning choice.reasoningContent :: ext, h1, ?_, ?_⟩
      · rw [h2]; simp [writeReasoning, htR]
      · intro c hc
        rcases List.mem_cons.1 hc with hc | hc
        · subst hc; exact ⟨rfl, by simp⟩
        · exact h3 c hc
    · rw [deltaStage_chunk_empty _ _ _ _ _ hre]
      simp only []
      rw [deltaStage_chunk_empty _ _ _ _ _ hcc]
      simp only []
      obtain ⟨st', ext, h1, h2, h3⟩ := refusalThenTools_obs2 e stR choice.refusal choice.toolCalls
      exact ⟨st', ext, h1, by rw [h2, htR], h3⟩

lemma stepFrame_obs2_first (e : LLMError) (st : StreamState) (frame : OpenAIStreamFrame)
    (s : String) (hs : frameContentChunk frame = some s)
    (h0 : countContent st.trace = 0) :
    ∃ st' ext, stepFrame (some (obsErrOnSecondContent e)) st frame = Except.ok st' ∧
      st'.trace = st.trace ++ ext ∧ countContent ext = 1 ∧
      ∀ c ∈ ext, c ≠ ObsCall.onStop := by
  rw [stepFrame]
  cases hch : frame.choices with
  | nil => rw [frameContentChunk, hch] at hs; exact absurd hs (by simp)
  | cons choice tail =>
    simp only []
    rw [frameContentChunk, hch] at hs
    simp only [List.head?_cons, Option.some_bind] at hs
    have hcc : choice.content ≠ "" := by
      by_cases hx : choice.content ≠ ""
      · exact hx
      · rw [if_neg hx] at hs; exact absurd hs (by simp)
    have hsv : choice.content = s := by
      rw [if_pos hcc] at hs; exact Option.some.inj hs
    set stR : StreamState :=
      if choice.role ≠ "" ∧ st.role = "" then { st with role := choice.role } else st
      with hstR
    have htR : stR.trace = st.trace := by
      rw [hstR]; by_cases hr : choice.role ≠ "" ∧ st.role = "" <;> simp [hr]
    by_cases hre : choice.reasoningContent ≠ ""
    · rw [deltaStage_some_ok hre (obs2_nonContent _ _ _ (by rfl))]
      simp only []
      rw [deltaStage_some_ok hcc (obs2_content_zero e _ _ (by
        show countContent (stR.trace ++ [ObsCall.onReasoning choice.reasoningContent]) = 0
        rw [countContent_append, htR, h0]; rfl))]
      simp only []
      obtain ⟨st', ext, h1, h2, h3⟩ := refusalThenTools_obs2 e _ choice.refusal choice.toolCalls
      refine ⟨st', ObsCall.onReasoning choice.reasoningContent ::
        ObsCall.onContent choice.content :: ext, h1, ?_, ?_, ?_⟩
      · rw [h2]; simp [writeReasoning, writeContent, htR]
      · have hext0 : countContent ext = 0 := by
          rw [countContent, List.length_eq_zero, List.filter_eq_nil_iff]
          exact fun c hc => by simp [(h3 c hc).1]
        simp [countContent, isContentCall, countContent_append] at hext0 ⊢
        simpa [countContent, isContentCall] using hext0
      · intro c hc
        rcases List.mem_cons.1 hc with hc | hc
        · subst hc; simp
        rcases List.mem_cons.1 hc with hc | hc
        · subst hc; simp
        · exact (h3 c hc).2
    · rw [deltaStage_chunk_empty _ _ _ _ _ hre]
      simp only []
      rw [deltaStage_some_ok hcc (obs2_content_zero e _ _ (by rw [htR]; exact h0))]
      simp only []
      obtain ⟨st', ext, h1, h2, h3⟩ := refusalThenTools_obs2 e _ choice.refusal choice.toolCalls
      refine ⟨st', ObsCall.onContent choice.content :: ext, h1, ?_, ?_, ?_⟩
      · rw [h2]; simp [writeContent, htR]
      · have hext0 : countContent ext = 0 := by
          rw [countContent, List.length_eq_zero, List.filter_eq_nil_iff]
          exact fun c hc => by simp [(h3 c hc).1]
        simpa [countContent, isContentCall] using hext0
      · intro c hc
        rcases List.mem_cons.1 hc with hc | hc
        · subst hc; simp
        · exact (h3 c hc).2

lemma stepFrame_obs2_second (e : LLMError) (st : StreamState) (frame : OpenAIStreamFrame)
    (s : String) (hs : frameContentChunk frame = some s)
    (h1 : countContent st.trace = 1) :
    ∃ stE pre, stepFrame (some (obsErrOnSecondContent e)) st frame
        = Except.error (stE, e) ∧
      stE.trace = st.trace ++ pre ++ [ObsCall.onContent s] ∧ countContent pre = 0 ∧
      ∀ c ∈ pre, c ≠ ObsCall.onStop := by
  rw [stepFrame]
  cases hch : frame.choices with
  | nil => rw [frameContentChunk, hch] at hs; exact absurd hs (by simp)
  | cons choice tail =>
    simp only []
    rw [frameContentChunk, hch] at hs
    simp only [List.head?_cons, Option.some_bind] at hs
    have hcc : choice.content ≠ "" := by
      by_cases hx : choice.content ≠ ""
      · exact hx
      · rw [if_neg hx] at hs; exact absurd hs (by simp)
    have hsv : choice.content = s := by
      rw [if_pos hcc] at hs; exact Option.some.inj hs
    set stR : StreamState :=
      if choice.role ≠ "" ∧ st.role = "" then { st with role := choice.role } else st
      with hstR
    have htR : stR.trace = st.trace := by
      rw [hstR]; by_cases hr : choice.role ≠ "" ∧ st.role = "" <;> simp [hr]
    by_cases hre : choice.reasoningContent ≠ ""
    · rw [deltaStage_some_ok hre (obs2_nonContent _ _ _ (by rfl))]
      simp only []
      rw [deltaStage_some_err hcc (obs2_content_one e _ _ (by
        show countContent (stR.trace ++ [ObsCall.onReasoning choice.reasoningContent]) = 1
        rw [countContent_append, htR, h1]; rfl))]
      simp only []
      refine ⟨_, [ObsCall.onReasoning choice.reasoningContent], rfl, ?_, ?_, ?_⟩
      · simp [writeReasoning, htR, hsv]
      · simp [countContent, isContentCall]
      · intro c hc
        simp only [List.mem_singleton] at hc
        subst hc; simp
    · rw [deltaStage_chunk_empty _ _ _ _ _ hre]
      simp only []
      rw [deltaStage_some_err hcc (obs2_content_one e _ _ (by rw [htR]; exact h1))]
      simp only []
      refine ⟨_, [], rfl, ?_, rfl, by simp⟩
      simp [htR, hsv]

lemma contentChunks_cons_none {f : OpenAIStreamFrame} {rest : List OpenAIStreamFrame}
    (hfc : frameContentChunk f = none) :
    contentChunks (f :: rest) = contentChunks rest := by
  rw [contentChunks, List.filterMap_cons, hfc, contentChunks]

lemma contentChunks_cons_some {f : OpenAIStreamFrame} {rest : List OpenAIStreamFrame}
    {s : String} (hfc : frameContentChunk f = some s) :
    contentChunks (f :: rest) = s :: contentChunks rest := by
  rw [contentChunks, List.filterMap_cons, hfc, contentChunks]

lemma runFrames_obs2 (e : LLMError) :
    ∀ (frames : List OpenAIStreamFrame) (st : StreamState),
      countContent st.trace ≤ 1 →
      2 ≤ countContent st.trace + (contentChunks frames).length →
      ∃ stE ext s, runFrames (some (obsErrOnSecondContent e)) st frames
          = Except.error (stE, e) ∧
        stE.trace = st.trace ++ ext ++ [ObsCall.onContent s] ∧
        countContent stE.trace = 2 ∧
        ∀ c ∈ ext, c ≠ ObsCall.onStop := by
  intro frames
  induction frames with
  | nil =>
    intro st hle h2
    rw [contentChunks] at h2
    simp at h2
    omega
  | cons f rest ih =>
    intro st hle h2
    rw [runFrames]
    cases hfc : frameContentChunk f with
    | none =>
      obtain ⟨st1, ext1, hstep, htr, hext⟩ := stepFrame_obs2_nochunk e st f hfc
      rw [hstep]
      have hext0 : countContent ext1 = 0 := by
        rw [countContent, List.length_eq_zero, List.filter_eq_nil_iff]
        exact fun c hc => by simp [(hext c hc).1]
      have hcnt1 : countContent st1.trace = countContent st.trace := by
        rw [htr, countContent_append, hext0]
        omega
      rw [contentChunks_cons_none hfc] at h2
      obtain ⟨stE, ext, s, h1', h2', h3', h4'⟩ := ih st1 (by omega) (by omega)
      refine ⟨stE, ext1 ++ ext, s, h1', ?_, h3', ?_⟩
      · rw [h2', htr]
        simp [List.append_assoc]
      · intro c hc
        rcases List.mem_append.1 hc with hc | hc
        · exact (hext c hc).2
        · exact h4' c hc
    | some s0 =>
      by_cases hc1 : countContent st.trace = 1
      · obtain ⟨stE, pre, hstep, htr, hpre0, hpre⟩ := stepFrame_obs2_second e st f s0 hfc hc1
        rw [hstep]
        refine ⟨stE, pre, s0, rfl, htr, ?_, hpre⟩
        rw [htr, countContent_append, countContent_append, hc1, hpre0]
        rfl
      · have hc0 : countContent st.trace = 0 := by omega
        obtain ⟨st1, ext1, hstep, htr, hext1, hstop⟩ := stepFrame_obs2_first e st f s0 hfc hc0
        rw [hstep]
        have hcnt1 : countContent st1.trace = 1 := by
          rw [htr, countContent_append, hc0, hext1]
        rw [contentChunks_cons_some hfc] at h2
        simp only [List.length_cons] at h2
        obtain ⟨stE, ext, s, h1', h2', h3', h4'⟩ := ih st1 (by omega) (by omega)
        refine ⟨stE, ext1 ++ ext, s, h1', ?_, h3', ?_⟩
        · rw [h2', htr]
          simp [List.append_assoc]
        · intro c hc
          rcases List.mem_append.1 hc with hc | hc
          · exact hstop c hc
          · exact h4' c hc

/-- C7: with an observer whose callback fails with `e` on the second content
delta, a stream carrying at least two content deltas makes
`ChatCompletionStream` return exactly `e` and no `Response`; the watcher
trace contains no invocation after the failing one — in particular `OnStop`
is never invoked — and ends at that second `OnContent` call. -/
theorem observer_error_aborts_stream (frames : List OpenAIStreamFrame) (e : LLMError)
    (h : 2 ≤ (contentChunks frames).length) :
    (openAIChatCompletionStream (some (obsErrOnSecondContent e)) frames).2
      = Except.error e ∧
    ObsCall.onStop ∉ (openAIChatCompletionStream (some (obsErrOnSecondContent e)) frames).1 ∧
    countContent (openAIChatCompletionStream (some (obsErrOnSecondContent e)) frames).1 = 2 ∧
    ∃ s, ((openAIChatCompletionStream (some (obsErrOnSecondContent e)) frames).1).getLast?
      = some (ObsCall.onContent s) := by
  obtain ⟨stE, ext, s, h1, h2, h3, h4⟩ :=
    runFrames_obs2 e frames {} (by rw [show ({} : StreamState).trace = [] from rfl]; simp [countContent])
      (by rw [show ({} : StreamState).trace = [] from rfl]
          simpa [countContent] using h)
  rw [openAIChatCompletionStream, h1]
  refine ⟨rfl, ?_, ?_, ⟨s, ?_⟩⟩
  · show ObsCall.onStop ∉ stE.trace
    rw [h2]
    intro hmem
    rcases List.mem_append.1 hmem with hmem | hmem
    · rcases List.mem_append.1 hmem with hmem | hmem
      · simp at hmem
      · exact h4 _ hmem rfl
    · simp at hmem
  · exact h3
  · show stE.trace.getLast? = _
    rw [h2, List.getLast?_concat]

/-- C7 witness: a stream of two content deltas with the erroring observer
returns the observer's exact error. -/
theorem observer_error_aborts_stream_witness :
    2 ≤ (contentChunks [{ choices := [{ content := "a" }] },
        { choices := [{ content := "b" }] }]).length ∧
    (openAIChatCompletionStream (some (obsErrOnSecondContent (LLMError.custom 7)))
        [{ choices := [{ content := "a" }] }, { choices := [{ content := "b" }] }]).2
      = Except.error (LLMError.custom 7) :=
  ⟨by decide,
   (observer_error_aborts_stream
      [{ choices := [{ content := "a" }] }, { choices := [{ content := "b" }] }]
      (LLMError.custom 7) (by decide)).1⟩

end OpenLLM
